import Mathlib

/-!
Verification development for the line-oriented diff/patch engine of the
PythonPowerTools repository (`src/python/diff.py` and `src/python/patch.py`).

The Python sources are embedded shallowly:

* lines are Lean `String`s (the reader in `diff.py` strips each line, which
  `read_lines` models);
* the LCS table `lcs_matrix`, the backtracking loop of `diff`, the block
  grouping, the `Hunk` class with its mutable `file_length_difference`
  global (threaded explicitly), and the normal/unified/ed renderers are
  embedded as executable functions;
* `patch.py`'s `Patch.find_match`, `Patch.reverse_hunk` and the hunk-scanning
  loop of `main` are embedded as pure functions over line lists;
* Python exceptions that terminate rendering (the `NameError` raised by the
  undefined variable `first` in `Hunk.unified_range`) are modelled by
  `Option`, with `none` for the raised exception.

Nat-valued fuel replaces the source's `while` loops so that every definition
is structural and kernel-executable; each fuel argument is instantiated with
a provably sufficient bound.
-/

/-- The sign tag of one entry of the change list built by `diff` in
`diff.py`: `'+'` (an insertion, carrying a B-index) or `'-'` (a deletion,
carrying an A-index). -/
inductive Sign where
  | plus : Sign
  | minus : Sign
deriving DecidableEq, Repr

/-- One element of the `changes` list of `diff.py`: the Python tuple
`('+', j)` or `('-', i)`. -/
abbrev Change := Sign × Nat

/-- The whitespace characters stripped by Python's `str.strip()`. -/
def isPySpace (c : Char) : Bool :=
  c = ' ' || c = '\t' || c = '\n' || c = '\r' || c = '\x0b' || c = '\x0c'

/-- Python's `s.strip()`: remove leading and trailing whitespace. -/
def pyStrip (s : String) : String :=
  ⟨((s.data.dropWhile isPySpace).reverse.dropWhile isPySpace).reverse⟩

/-- Python's `s.startswith(p)`. -/
def strStartsWith (s p : String) : Bool :=
  p.data.isPrefixOf s.data

/-- Python's slice `s[n:]`. -/
def strDrop (s : String) (n : Nat) : String :=
  ⟨s.data.drop n⟩

/-- Python's slice `l[i:k]` on a list (used to express runs of kept lines
when an edit script is applied). -/
def seg (l : List String) (i k : Nat) : List String :=
  (l.drop i).take (k - i)

/-- The file reading of `diff.py` `__main__`:
`[line.strip() for line in fh.readlines()]`. -/
def read_lines (raw : List String) : List String :=
  raw.map pyStrip

/-! ## `lcs_matrix` (diff.py lines 226-235)

The Python builds the table row by row; `matrix[i][j]` (`0 ≤ i ≤ len a`,
`0 ≤ j ≤ len b`) is `0` on the borders and otherwise follows the LCS
recurrence.  `lcsRowAux` computes the entries `1..len b` of one row from the
previous row (`prev`, passed as the suffix starting at the diagonal
neighbour) and the entry to the left (`left`). -/

/-- Inner loop of `lcs_matrix`: entries `j ≥ 1` of one row. -/
def lcsRowAux (x : String) : List String → List Nat → Nat → List Nat
  | [], _, _ => []
  | y :: ys, prev, left =>
    let v := if x = y then prev.headD 0 + 1 else max left ((prev.drop 1).headD 0)
    v :: lcsRowAux x ys (prev.drop 1) v

/-- One full row (entries `0..len b`) of the LCS table. -/
def lcsRow (x : String) (b : List String) (prev : List Nat) : List Nat :=
  0 :: lcsRowAux x b prev 0

/-- Rows `1..len a` of the LCS table. -/
def lcsRows (b : List String) : List String → List Nat → List (List Nat)
  | [], _ => []
  | x :: xs, prev =>
    let r := lcsRow x b prev
    r :: lcsRows b xs r

/-- `lcs_matrix(a, b)` of diff.py: the `(len a + 1) × (len b + 1)` LCS
length table. -/
def lcs_matrix (a b : List String) : List (List Nat) :=
  let row0 := List.replicate (b.length + 1) 0
  row0 :: lcsRows b a row0

/-- Lookup `matrix[i][j]` with the out-of-range default `0` (the Python code
only reads entries in range). -/
def mEntry (m : List (List Nat)) (i j : Nat) : Nat :=
  (m.getD i []).getD j 0

/-! ## `diff` (diff.py lines 237-279)

The backtracking `while` loop starting from `(len a, len b)`; the list it
builds is in backward order (latest file positions first) and is reversed at
the end.  Fuel `len a + len b` bounds the loop. -/

/-- The backtracking loop of `diff`, producing the `changes` list in the
order Python appends to it (before the final `reverse`). -/
def diffLoop (a b : List String) (m : List (List Nat)) : Nat → Nat → Nat → List Change
  | 0, _, _ => []
  | fuel + 1, i, j =>
    if i = 0 ∧ j = 0 then []
    else if 0 < i ∧ 0 < j ∧ a.getD (i - 1) "" = b.getD (j - 1) "" then
      diffLoop a b m fuel (i - 1) (j - 1)
    else if 0 < j ∧ (i = 0 ∨ mEntry m i (j - 1) ≥ mEntry m (i - 1) j) then
      (Sign.plus, j - 1) :: diffLoop a b m fuel i (j - 1)
    else if 0 < i ∧ (j = 0 ∨ mEntry m i (j - 1) < mEntry m (i - 1) j) then
      (Sign.minus, i - 1) :: diffLoop a b m fuel (i - 1) j
    else []

/-- The `changes` list of `diff` after `changes.reverse()`: the edit script
in ascending file order. -/
def changes (a b : List String) : List Change :=
  (diffLoop a b (lcs_matrix a b) (a.length + b.length) a.length b.length).reverse

/-- The block-grouping loop of `diff`: `prev` is `changes[k-1]`, `cur` the
block being accumulated; a change continues the block iff it has the same
sign and an adjacent index (`abs(prev_idx - curr_idx) == 1`). -/
def groupLoop : List Change → Change → List Change → List (List Change)
  | [], _, cur => [cur]
  | c :: rest, prev, cur =>
    if prev.1 = c.1 ∧ ((prev.2 : Int) - (c.2 : Int)).natAbs = 1 then
      groupLoop rest c (cur ++ [c])
    else
      cur :: groupLoop rest c [c]

/-- `diff(a, b)` of diff.py: the change list grouped into blocks. -/
def diff (a b : List String) : List (List Change) :=
  match changes a b with
  | [] => []
  | c :: rest => groupLoop rest c [c]

/-! ## The `Block` operations (diff.py lines 30-59) -/

/-- `Block.removes`: the `'-'` changes of a block. -/
def removes (blk : List Change) : List Change :=
  blk.filter (fun c => c.1 = Sign.minus)

/-- `Block.inserts`: the `'+'` changes of a block. -/
def inserts (blk : List Change) : List Change :=
  blk.filter (fun c => c.1 = Sign.plus)

/-- `Block.remove_count`. -/
def remove_count (blk : List Change) : Nat :=
  (removes blk).length

/-- `Block.insert_count`. -/
def insert_count (blk : List Change) : Nat :=
  (inserts blk).length

/-- `Block.length_diff = insert_count - remove_count` (a Python int). -/
def length_diff (blk : List Change) : Int :=
  (insert_count blk : Int) - (remove_count blk : Int)

/-- `Block.op`: `'!'` when the block both removes and inserts, `'-'` or
`'+'` for a pure removal/insertion, `'^'` otherwise. -/
def blockOp (blk : List Change) : Char :=
  if remove_count blk ≠ 0 ∧ insert_count blk ≠ 0 then '!'
  else if remove_count blk ≠ 0 then '-'
  else if insert_count blk ≠ 0 then '+'
  else '^'

/-! ## The `Hunk` class (diff.py lines 61-224)

`Hunk.__init__` reads and updates the module global `file_length_difference`;
the embedding threads it explicitly as `fld`.  Ranges are Python ints and may
be negative, so the fields are `Int`. -/

/-- The `Hunk` object: context-expanded 0-based inclusive ranges in each
file plus the contained blocks. -/
structure Hunk where
  start1 : Int
  end1 : Int
  start2 : Int
  end2 : Int
  blocks : List (List Change)
deriving DecidableEq, Repr

/-- `Hunk.__init__(chunk, context_lines)` together with `flag_context`:
builds the hunk of one block and returns it with the updated
`file_length_difference`.  `len1`/`len2` are `len(f1)`/`len(f2)`, used by
the clamping in `flag_context`. -/
def mkHunk (chunk : List Change) (context_lines : Nat) (fld : Int)
    (len1 len2 : Nat) : Hunk × Int :=
  let before_diff := fld
  let after_diff := fld + length_diff chunk
  let rs := removes chunk
  let is := inserts chunk
  let dummy : Change := (Sign.minus, 0)
  let start1 : Int := match rs with
    | r :: _ => (r.2 : Int)
    | [] => ((is.headD dummy).2 : Int) - before_diff
  let end1 : Int := match rs with
    | _ :: _ => ((rs.getLastD dummy).2 : Int)
    | [] => ((is.getLastD dummy).2 : Int) - after_diff
  let start2 : Int := match is with
    | i :: _ => (i.2 : Int)
    | [] => ((rs.headD dummy).2 : Int) + before_diff
  let end2 : Int := match is with
    | _ :: _ => ((is.getLastD dummy).2 : Int)
    | [] => ((rs.getLastD dummy).2 : Int) + after_diff
  let h : Hunk :=
    if context_lines = 0 then
      ⟨start1, end1, start2, end2, [chunk]⟩
    else
      ⟨max 0 (start1 - context_lines), min ((len1 : Int) - 1) (end1 + context_lines),
       max 0 (start2 - context_lines), min ((len2 : Int) - 1) (end2 + context_lines),
       [chunk]⟩
  (h, after_diff)

/-- `Hunk.does_overlap(other)` for a present `other` hunk. -/
def does_overlap (h other : Hunk) : Bool :=
  decide (h.start1 - other.end1 ≤ 1) || decide (h.start2 - other.end2 ≤ 1)

/-- `Hunk.prepend_hunk(other)`: absorb `other`'s start positions and put its
blocks in front. -/
def prepend_hunk (h other : Hunk) : Hunk :=
  { h with start1 := other.start1, start2 := other.start2,
           blocks := other.blocks ++ h.blocks }

/-- The hunk-building loop of `__main__` (diff.py lines 395-415): walk the
blocks, merging a new hunk into the pending one when `context_lines > 0` and
they overlap, otherwise flushing the pending hunk.  Returns the flushed
hunks in flush order. -/
def hunkLoop (context_lines len1 len2 : Nat) :
    List (List Change) → Option Hunk → Int → List Hunk
  | [], none, _ => []
  | [], some h, _ => [h]
  | piece :: rest, old, fld =>
    let p := mkHunk piece context_lines fld len1 len2
    match old with
    | none => hunkLoop context_lines len1 len2 rest (some p.1) p.2
    | some oh =>
      if 0 < context_lines ∧ does_overlap p.1 oh then
        hunkLoop context_lines len1 len2 rest (some (prepend_hunk p.1 oh)) p.2
      else
        oh :: hunkLoop context_lines len1 len2 rest (some p.1) p.2

/-- The hunks flushed for files `a`, `b` with a given context width. -/
def hunkList (a b : List String) (context_lines : Nat) : List Hunk :=
  hunkLoop context_lines a.length b.length (diff a b) none 0

/-- `Hunk.context_range(flag)` on the pair `(start, end)` of the chosen
side: 1-based `"s,e"`, shortened to `str(e)` when `s ≥ e`. -/
def context_range (s e : Int) : String :=
  if s + 1 < e + 1 then toString (s + 1) ++ "," ++ toString (e + 1)
  else toString (e + 1)

/-- The 0-based inclusive `Int` range `[s, e]` as a list (Python
`range(s, e + 1)` over int indices). -/
def intRange (s e : Int) : List Int :=
  (List.range (e + 1 - s).toNat).map (fun k => s + (k : Int))

/-- `op_hash` lookup of `output_old_diff`/`output_ed_diff`. -/
def opAction (c : Char) : String :=
  if c = '+' then "a" else if c = '-' then "d" else if c = '!' then "c" else "u"

/-- `Hunk.output_old_diff`: the printed lines of one hunk in normal
format. -/
def output_old_diff (f1 f2 : List String) (h : Hunk) : List String :=
  let block := h.blocks.headD []
  let action := opAction (blockOp block)
  let header := context_range h.start1 h.end1 ++ action ++ context_range h.start2 h.end2
  let part1 :=
    if removes block ≠ [] then
      (intRange h.start1 h.end1).map (fun i => "< " ++ f1.getD i.toNat "")
    else []
  let sep := if blockOp block = '!' then ["---"] else []
  let part2 :=
    if inserts block ≠ [] then
      (intRange h.start2 h.end2).map (fun i => "> " ++ f2.getD i.toNat "")
    else []
  header :: (part1 ++ sep ++ part2)

/-- `Hunk.unified_range(flag)`: `"start,length"` when the length exceeds 1;
otherwise the Python evaluates the undefined name `first` and raises
`NameError`, modelled by `none`. -/
def unified_range (s e : Int) : Option String :=
  let start := s + 1
  let en := e + 1
  let length := en - start + 1
  if length > 1 then some (toString start ++ "," ++ toString length) else none

/-- The body loop of `Hunk.output_unified_diff`: scan `i1`/`i2` from the
hunk starts, emitting `-`/`+`/context lines.  Out-of-range reads are
modelled with the `""` default; fuel bounds the `while` loop. -/
def unifiedBody (f1 f2 : List String) (blocks : List (List Change))
    (high1 high2 : Int) : Nat → Int → Int → List String
  | 0, _, _ => []
  | fuel + 1, i1, i2 =>
    if i1 ≤ high1 ∨ i2 ≤ high2 then
      let is_remove := i1 ≤ high1 ∧
        blocks.any (fun blk => (removes blk).any (fun c => ((c.2 : Int) = i1 : Bool)))
      let is_insert := i2 ≤ high2 ∧
        blocks.any (fun blk => (inserts blk).any (fun c => ((c.2 : Int) = i2 : Bool)))
      if is_remove ∧ is_insert then
        ("-" ++ f1.getD i1.toNat "") :: ("+" ++ f2.getD i2.toNat "") ::
          unifiedBody f1 f2 blocks high1 high2 fuel (i1 + 1) (i2 + 1)
      else if is_remove then
        ("-" ++ f1.getD i1.toNat "") :: unifiedBody f1 f2 blocks high1 high2 fuel (i1 + 1) i2
      else if is_insert then
        ("+" ++ f2.getD i2.toNat "") :: unifiedBody f1 f2 blocks high1 high2 fuel i1 (i2 + 1)
      else
        (" " ++ f1.getD i1.toNat "") :: unifiedBody f1 f2 blocks high1 high2 fuel (i1 + 1) (i2 + 1)
    else []

/-- `Hunk.output_unified_diff`: header plus body lines; `none` models the
`NameError` raised by `unified_range` on a range of length at most 1.
(`print("\n".join([]))` emits one empty line, hence the `[""]` case.) -/
def output_unified_diff (f1 f2 : List String) (h : Hunk) : Option (List String) :=
  match unified_range h.start1 h.end1, unified_range h.start2 h.end2 with
  | some r1, some r2 =>
    let fuel := (h.end1 + 1 - h.start1).toNat + (h.end2 + 1 - h.start2).toNat
    let body := unifiedBody f1 f2 h.blocks h.end1 h.end2 fuel h.start1 h.start2
    some (("@@ -" ++ r1 ++ " +" ++ r2 ++ " @@") :: (if body = [] then [""] else body))
  | _, _ => none

/-- The two ed-script dialects of `Hunk.output_ed_diff`. -/
inductive EdMode where
  | ed : EdMode
  | reverse_ed : EdMode
deriving DecidableEq, Repr

/-- The header of `output_ed_diff`: `range1 + action` for `ED`,
`action + range1.replace(',', ' ')` for `REVERSE_ED`. -/
def edHeader (mode : EdMode) (h : Hunk) (action : String) : String :=
  match mode with
  | EdMode.ed => context_range h.start1 h.end1 ++ action
  | EdMode.reverse_ed =>
    let r := if h.start1 + 1 < h.end1 + 1 then
        toString (h.start1 + 1) ++ " " ++ toString (h.end1 + 1)
      else toString (h.end1 + 1)
    action ++ r

/-- `Hunk.output_ed_diff`: header, then for hunks with inserts the new lines
and the terminating `"."`. -/
def output_ed_diff (_f1 f2 : List String) (mode : EdMode) (h : Hunk) : List String :=
  let block := h.blocks.headD []
  let action := opAction (blockOp block)
  let body :=
    if inserts block ≠ [] then
      ((intRange h.start2 h.end2).map (fun i => f2.getD i.toNat "")) ++ ["."]
    else []
  edHeader mode h action :: body

/-- The normal-format output of `diff.py` (diff type `OLD`, context 0). -/
def old_output (a b : List String) : List String :=
  (hunkList a b 0).flatMap (output_old_diff a b)

/-- The unified-format hunk output of `diff.py` (`-u`, context 3); `none`
models a `NameError` escaping from any hunk's rendering. -/
def unified_output (a b : List String) : Option (List String) :=
  (List.mapM (output_unified_diff a b) (hunkList a b 3)).map List.flatten

/-- The `ED` output: hunks are pushed with `appendleft` onto the `ed_hunks`
deque as they are flushed and printed after the loop, i.e. in reverse flush
order (bottom of the file first). -/
def ed_output (a b : List String) : List String :=
  ((hunkList a b 0).reverse).flatMap (output_ed_diff a b EdMode.ed)

/-- The `REVERSE_ED` output: each hunk is printed inline as it is flushed,
i.e. in ascending file order. -/
def reverse_ed_output (a b : List String) : List String :=
  (hunkList a b 0).flatMap (output_ed_diff a b EdMode.reverse_ed)

/-! ## `patch.py` (lines 72-324)

`Patch.find_match` is embedded as a pure function over the target buffer:
the file handle is seeked to line `i_start - 1` and the context lines of the
hunk are compared, stripped on both sides, against consecutive buffer lines;
any mismatch returns `None` immediately (the fuzzy search announced by the
comment in the source is absent).  `Patch.reverse_hunk` swaps the `+`/`-`
line prefixes.  The hunk-scanning loop of `main` recognises a hunk only at a
line starting with `"--- "` and then collects every following line starting
with `'+'`, `'-'` or `' '`; the line that ends the collection is consumed
and lost. -/

/-- `Patch.find_match(i_start, hunk)`, part 1: the context lines of a hunk
are the lines starting with a space, first character dropped. -/
def context_lines (hunk : List String) : List String :=
  (hunk.filter (fun l => strStartsWith l " ")).map (fun l => strDrop l 1)

/-- Success test of `find_match`: each context line, stripped, equals the
corresponding stripped buffer line from `i_start - 1` on. -/
def find_match (buffer : List String) (i_start : Nat) (hunk : List String) :
    Option (Nat × Nat) :=
  if (List.range (context_lines hunk).length).all
      (fun k => pyStrip ((context_lines hunk).getD k "") = pyStrip (buffer.getD (i_start - 1 + k) ""))
  then some (i_start - 1, 0)
  else none

/-- The per-line transformation of `Patch.reverse_hunk`: a leading `'+'`
becomes `'-'` and vice versa (`f"-{line[1:]}"`), any other line is kept. -/
def reverseLine (l : String) : String :=
  match l.data with
  | '+' :: rest => ⟨'-' :: rest⟩
  | '-' :: rest => ⟨'+' :: rest⟩
  | _ => l

/-- `Patch.reverse_hunk(hunk)`. -/
def reverse_hunk (hunk : List String) : List String :=
  hunk.map reverseLine

/-- The hunk-scanning loop of `patch.py main`: outside a hunk (`none`
state) only a line starting with `"--- "` opens a hunk; inside a hunk
(`some` state) lines starting with `'+'`, `'-'` or `' '` are collected and
the first other line ends the hunk and is consumed.  Returns the collected
hunks in order. -/
def parseLoop : List String → Option (List String) → List (List String)
  | [], none => []
  | [], some h => [h.reverse]
  | l :: ls, none =>
    if strStartsWith l "--- " then parseLoop ls (some [])
    else parseLoop ls none
  | l :: ls, some h =>
    if strStartsWith l "+" || strStartsWith l "-" || strStartsWith l " " then
      parseLoop ls (some (l :: h))
    else
      h.reverse :: parseLoop ls none

/-- The hunks `patch.py` extracts from a patch text. -/
def parseHunks (text : List String) : List (List String) :=
  parseLoop text none

/-! ## Edit-script application and the LCS specification

`diff.py` itself never applies an edit script; the spec describes the change
list as "an ordered sequence of EditOps transforms A into B exactly".  The
following two definitions formalise that sentence: positions between two
consecutive script operations are implicit KEEPs copying lines of `A`, a
`('-', i)` deletes line `i` of `A`, a `('+', j)` inserts line `j` of `B`,
and an operation whose index is out of range or out of order makes the
script invalid (`none`).  `applyRevOps` consumes the script from its last
operation backwards, which matches the order in which the backtracking loop
emits operations. -/

/-- Modelled from the spec: apply the operations of an edit script given in
backward order; the result `(i, j, out)` is the number of consumed `A`
lines, produced output lines, and the output so far. -/
def applyRevOps (a b : List String) : List Change → Option (Nat × Nat × List String)
  | [] => some (0, 0, [])
  | c :: rest =>
    match applyRevOps a b rest with
    | none => none
    | some (i, j, out) =>
      match c with
      | (Sign.minus, d) =>
        if i ≤ d ∧ d < a.length then
          some (d + 1, j + (d - i), out ++ seg a i d)
        else none
      | (Sign.plus, p) =>
        if j ≤ p ∧ p < b.length ∧ i + (p - j) ≤ a.length then
          some (i + (p - j), p + 1, out ++ seg a i (i + (p - j)) ++ [b.getD p ""])
        else none

/-- Modelled from the spec: apply an edit script (in ascending order, the
order of `changes`) to `A`; after the last operation the remaining lines of
`A` are kept. -/
def applyChanges (a b : List String) (script : List Change) : Option (List String) :=
  (applyRevOps a b script.reverse).map (fun r => r.2.2 ++ a.drop r.1)

/-- Specification of the longest-common-subsequence length: the defining
recurrence, peeling the heads.  Only used inside proofs. -/
def lcsLen : List String → List String → Nat
  | [], _ => 0
  | _ :: _, [] => 0
  | x :: xs, y :: ys =>
    if x = y then lcsLen xs ys + 1
    else max (lcsLen (x :: xs) ys) (lcsLen xs (y :: ys))
termination_by xs ys => xs.length + ys.length
decreasing_by all_goals (simp [List.length_cons]; try omega)

/-! ## Helper lemmas -/

/-- Lines starting with a plus sign have that plus sign as head of their
character data. -/
theorem startsWith_char_data {s : String} {c : Char}
    (h : strStartsWith s ⟨[c]⟩ = true) : ∃ t, s.data = c :: t := by
  unfold strStartsWith at h
  rcases s with ⟨d⟩
  cases d with
  | nil => simp [List.isPrefixOf] at h
  | cons c0 t =>
    simp only [List.isPrefixOf, Bool.and_eq_true, beq_iff_eq] at h
    exact ⟨t, by simp [h.1]⟩

/-- Applying `reverseLine` twice is the identity. -/
theorem reverseLine_reverseLine (s : String) : reverseLine (reverseLine s) = s := by
  rcases s with ⟨d⟩
  match d with
  | [] => rfl
  | '+' :: t => rfl
  | '-' :: t => rfl
  | c :: t =>
    by_cases h1 : c = '+'
    · subst h1; rfl
    · by_cases h2 : c = '-'
      · subst h2; rfl
      · have e : reverseLine ⟨c :: t⟩ = ⟨c :: t⟩ := by
          unfold reverseLine
          split
          · next heq => exact absurd (List.head_eq_of_cons_eq heq.symm).symm h1
          · next heq => exact absurd (List.head_eq_of_cons_eq heq.symm).symm h2
          · rfl
        rw [e, e]

/-- The block-grouping loop concatenates back to the change list it
consumed. -/
theorem groupLoop_flatten (rest : List Change) :
    ∀ (prev : Change) (cur : List Change),
      (groupLoop rest prev cur).flatten = cur ++ rest := by
  induction rest with
  | nil => intro prev cur; simp [groupLoop]
  | cons c rest ih =>
    intro prev cur
    by_cases h : prev.1 = c.1 ∧ ((prev.2 : Int) - (c.2 : Int)).natAbs = 1
    · simp [groupLoop, h, ih]
    · simp [groupLoop, h, ih]

/-- The backtracking loop on the diagonal of equal files emits nothing. -/
theorem diffLoop_diag (a : List String) (m : List (List Nat)) :
    ∀ (fuel i : Nat), diffLoop a a m fuel i i = [] := by
  intro fuel
  induction fuel with
  | zero => intro i; rfl
  | succ fuel ih =>
    intro i
    cases i with
    | zero => simp [diffLoop]
    | succ i => simp [diffLoop, ih]

/-- Equal inputs produce an empty change list. -/
theorem changes_self (a : List String) : changes a a = [] := by
  simp [changes, diffLoop_diag]

/-- With no `A` lines left, only insert operations are ever emitted. -/
theorem diffLoop_zero_left (a b : List String) (m : List (List Nat)) :
    ∀ (fuel j : Nat) (c : Change), c ∈ diffLoop a b m fuel 0 j → c.1 = Sign.plus := by
  intro fuel
  induction fuel with
  | zero => intro j c h; simp [diffLoop] at h
  | succ fuel ih =>
    intro j c h
    cases j with
    | zero => simp [diffLoop] at h
    | succ j =>
      simp only [diffLoop] at h
      norm_num at h
      rcases h with h | h
      · rw [h]
      · exact ih j c h

/-- With no `B` lines left, only delete operations are ever emitted. -/
theorem diffLoop_zero_right (a b : List String) (m : List (List Nat)) :
    ∀ (fuel i : Nat) (c : Change), c ∈ diffLoop a b m fuel i 0 → c.1 = Sign.minus := by
  intro fuel
  induction fuel with
  | zero => intro i c h; simp [diffLoop] at h
  | succ fuel ih =>
    intro i c h
    cases i with
    | zero => simp [diffLoop] at h
    | succ i =>
      simp only [diffLoop] at h
      norm_num at h
      rcases h with h | h
      · rw [h]
      · exact ih i c h

/-! ## Claim C10 -/

/-- C10: `Patch.reverse_hunk` exchanges the `+` and `-` line prefixes,
leaves every other line unchanged, and applying it twice returns the
original hunk. -/
theorem c10_reverse_hunk_involution :
    (∀ s : String, strStartsWith s "+" = true → reverseLine s = "-" ++ strDrop s 1) ∧
    (∀ s : String, strStartsWith s "-" = true → reverseLine s = "+" ++ strDrop s 1) ∧
    (∀ s : String, strStartsWith s "+" = false → strStartsWith s "-" = false →
      reverseLine s = s) ∧
    (∀ hunk : List String, reverse_hunk (reverse_hunk hunk) = hunk) := by
  refine ⟨?_, ?_, ?_, ?_⟩
  · intro s h
    obtain ⟨t, ht⟩ := startsWith_char_data (c := '+') h
    rcases s with ⟨d⟩
    simp only at ht
    subst ht
    rfl
  · intro s h
    obtain ⟨t, ht⟩ := startsWith_char_data (c := '-') h
    rcases s with ⟨d⟩
    simp only at ht
    subst ht
    rfl
  · intro s h1 h2
    rcases s with ⟨d⟩
    cases d with
    | nil => rfl
    | cons c t =>
      have hc1 : c ≠ '+' := by
        intro e; subst e; simp [strStartsWith, List.isPrefixOf] at h1
      have hc2 : c ≠ '-' := by
        intro e; subst e; simp [strStartsWith, List.isPrefixOf] at h2
      unfold reverseLine
      split
      · next heq => exact absurd (List.head_eq_of_cons_eq heq.symm).symm hc1
      · next heq => exact absurd (List.head_eq_of_cons_eq heq.symm).symm hc2
      · rfl
  · intro hunk
    unfold reverse_hunk
    rw [List.map_map]
    have h : reverseLine ∘ reverseLine = id := funext reverseLine_reverseLine
    rw [h, List.map_id]

/-- Witness for C10 at concrete lines. -/
theorem c10_reverse_hunk_involution_witness :
    reverseLine "+x" = "-" ++ strDrop "+x" 1 ∧
    reverseLine "-y" = "+" ++ strDrop "-y" 1 ∧
    reverseLine " z" = " z" ∧
    reverse_hunk (reverse_hunk ["+x", "-y", " z", ""]) = ["+x", "-y", " z", ""] :=
  ⟨c10_reverse_hunk_involution.1 "+x" (by decide),
   c10_reverse_hunk_involution.2.1 "-y" (by decide),
   c10_reverse_hunk_involution.2.2.1 " z" (by decide) (by decide),
   c10_reverse_hunk_involution.2.2.2 ["+x", "-y", " z", ""]⟩

/-! ## Claim C4 -/

/-- C4 (code bug): `Patch.find_match` never searches any position other
than `i_start - 1` — there is no `±fuzz` scan and no trimmed-context retry;
the only possible results are `None` and `[i_start - 1, 0]`.  At the
failing input (context line `a`, buffer line `b`) it returns `None`, after
which `Patch.apply` calls the nonexistent method `self.throw`, so the run
aborts with `AttributeError` instead of recording a `RejectedHunk`. -/
theorem c4_find_match_code_bug :
    (∀ (buffer : List String) (i_start : Nat) (hunk : List String),
        find_match buffer i_start hunk = none ∨
        find_match buffer i_start hunk = some (i_start - 1, 0)) ∧
    find_match ["b"] 1 [" a"] = none := by
  constructor
  · intro buffer i_start hunk
    unfold find_match
    split
    · right; rfl
    · left; rfl
  · decide

/-! ## Claim C2 -/

/-- C2 (code bug): the round trip fails.  The normal-format rendering of
the concrete pair is never recognised by the parser of `patch.py` (which
only opens a hunk at a line starting with `"--- "`), so applying the parse
result changes nothing and cannot yield `B`; and on a unified diff stream
the parser swallows the `+++` file header as the hunk body and discards
the real hunk. -/
theorem c2_roundtrip_code_bug :
    old_output ["a", "b", "c"] ["a", "x", "c"] = ["2d1", "< b", "2a2", "> x"] ∧
    parseHunks ["2d1", "< b", "2a2", "> x"] = [] ∧
    parseHunks ["--- f1", "+++ f2", "@@ -1,3 +1,3 @@", " a", "-b", "+x", " c"] =
      [["+++ f2"]] := by
  refine ⟨by decide, by decide, by decide⟩

/-! ## Claim C3 -/

/-- C3 (code bug): on `A = ["a","b","c"]`, `B = ["a","x","c"]` the grouper
produces two Blocks (the delete and the insert are split), which merge into
a single Hunk whose unified rendering is exactly the five claimed lines;
but the parser of `patch.py` extracts no hunk from that text, so applying
the parse result cannot turn `A` into `B`. -/
theorem c3_concrete_scenario_code_bug :
    diff ["a", "b", "c"] ["a", "x", "c"] = [[(Sign.minus, 1)], [(Sign.plus, 1)]] ∧
    (hunkList ["a", "b", "c"] ["a", "x", "c"] 3).length = 1 ∧
    unified_output ["a", "b", "c"] ["a", "x", "c"] =
      some ["@@ -1,3 +1,3 @@", " a", "-b", "+x", " c"] ∧
    parseHunks ["@@ -1,3 +1,3 @@", " a", "-b", "+x", " c"] = [] := by
  refine ⟨by decide, by decide, by decide, by decide⟩

/-! ## Claim C7 -/

/-- C7 (code bug): the grouping loop starts a new Block whenever the sign
changes, so a deletion immediately followed by an insertion yields two
Blocks, and a single-line replacement renders in normal format as a `d`
hunk followed by an `a` hunk — the `c` action and the `---` separator are
unreachable. -/
theorem c7_block_grouping_code_bug :
    diff ["a", "b", "c"] ["a", "x", "c"] = [[(Sign.minus, 1)], [(Sign.plus, 1)]] ∧
    old_output ["a", "b", "c"] ["a", "x", "c"] = ["2d1", "< b", "2a2", "> x"] := by
  refine ⟨by decide, by decide⟩

/-! ## Claim C9 -/

/-- Counterexample to C9: the reader strips each line, so two files whose
lines differ only in surrounding whitespace produce identical stripped
sequences and an empty change list — `diff.py` then reports them as
identical; and `find_match` accepts a context line differing from the
buffer line only in surrounding whitespace. -/
theorem c9_whitespace_counterexample :
    ("a " : String) ≠ "a" ∧
    diff (read_lines ["a "]) (read_lines ["a"]) = [] ∧
    find_match ["a"] 1 [" a "] = some (0, 0) := by
  refine ⟨by decide, by decide, by decide⟩

/-- C9 amended: line comparison happens on stripped text.  Any two raw
files with equal per-line stripped content yield an empty change list (and
are therefore reported identical), and `find_match` cannot distinguish
buffers with equal per-line stripped content. -/
theorem c9_whitespace_amended :
    (∀ raw1 raw2 : List String, raw1.map pyStrip = raw2.map pyStrip →
      diff (read_lines raw1) (read_lines raw2) = []) ∧
    (∀ (buf1 buf2 : List String) (i_start : Nat) (hunk : List String),
      buf1.map pyStrip = buf2.map pyStrip →
      find_match buf1 i_start hunk = find_match buf2 i_start hunk) := by
  constructor
  · intro raw1 raw2 h
    unfold read_lines
    rw [h]
    simp [diff, changes_self]
  · intro buf1 buf2 i_start hunk h
    have key : ∀ n : Nat, pyStrip (buf1.getD n "") = pyStrip (buf2.getD n "") := by
      intro n
      have h1 : (buf1.map pyStrip).getD n (pyStrip "") = pyStrip (buf1.getD n "") :=
        List.getD_map buf1 "" pyStrip
      have h2 : (buf2.map pyStrip).getD n (pyStrip "") = pyStrip (buf2.getD n "") :=
        List.getD_map buf2 "" pyStrip
      rw [← h1, ← h2, h]
    unfold find_match
    simp only [key]

/-- Witness for the amended C9. -/
theorem c9_whitespace_amended_witness :
    diff (read_lines ["x "]) (read_lines [" x"]) = [] ∧
    find_match ["q"] 1 [" z"] = find_match ["q  "] 1 [" z"] :=
  ⟨c9_whitespace_amended.1 ["x "] [" x"] (by decide),
   c9_whitespace_amended.2 ["q"] ["q  "] 1 [" z"] (by decide)⟩

/-! ## Claim C8 -/

/-- Counterexample to C8: for `A = ["a"]`, `B = ["x"]` the single merged
hunk has one-line ranges on both sides, and its unified rendering raises
`NameError` (the undefined variable `first` in `unified_range`) instead of
producing a header — rendering is not total and a one-line range never
prints both a start and a length. -/
theorem c8_unified_range_counterexample :
    (hunkList ["a"] ["x"] 3).map (output_unified_diff ["a"] ["x"]) = [none] := by
  decide

/-- C8 amended: whenever both sides of a hunk span more than one line, the
unified header has the exact shape `@@ -a1,lenA +b1,lenB @@`; a range of
one line or less makes `unified_range` evaluate the undefined name `first`
and the rendering raises instead of printing a shortened range. -/
theorem c8_unified_header_amended (f1 f2 : List String) (h : Hunk)
    (len1 : 1 < h.end1 - h.start1 + 1) (len2 : 1 < h.end2 - h.start2 + 1) :
    ∃ rest, output_unified_diff f1 f2 h =
      some (("@@ -" ++ (toString (h.start1 + 1) ++ "," ++ toString (h.end1 - h.start1 + 1)) ++
             " +" ++ (toString (h.start2 + 1) ++ "," ++ toString (h.end2 - h.start2 + 1)) ++
             " @@") :: rest) := by
  have e1 : unified_range h.start1 h.end1 =
      some (toString (h.start1 + 1) ++ "," ++ toString (h.end1 - h.start1 + 1)) := by
    unfold unified_range
    have hc : h.end1 + 1 - (h.start1 + 1) + 1 > 1 := by omega
    rw [if_pos hc]
    have : h.end1 + 1 - (h.start1 + 1) + 1 = h.end1 - h.start1 + 1 := by omega
    rw [this]
  have e2 : unified_range h.start2 h.end2 =
      some (toString (h.start2 + 1) ++ "," ++ toString (h.end2 - h.start2 + 1)) := by
    unfold unified_range
    have hc : h.end2 + 1 - (h.start2 + 1) + 1 > 1 := by omega
    rw [if_pos hc]
    have : h.end2 + 1 - (h.start2 + 1) + 1 = h.end2 - h.start2 + 1 := by omega
    rw [this]
  unfold output_unified_diff
  rw [e1, e2]
  exact ⟨_, rfl⟩

/-- Witness for the amended C8 at the hunk of the concrete scenario. -/
theorem c8_unified_header_amended_witness :
    ∃ rest, output_unified_diff ["a", "b", "c"] ["a", "x", "c"]
        ⟨0, 2, 0, 2, [[(Sign.minus, 1)], [(Sign.plus, 1)]]⟩ =
      some (("@@ -" ++ (toString ((0 : Int) + 1) ++ "," ++ toString ((2 : Int) - 0 + 1)) ++
             " +" ++ (toString ((0 : Int) + 1) ++ "," ++ toString ((2 : Int) - 0 + 1)) ++
             " @@") :: rest) :=
  c8_unified_header_amended ["a", "b", "c"] ["a", "x", "c"]
    ⟨0, 2, 0, 2, [[(Sign.minus, 1)], [(Sign.plus, 1)]]⟩ (by decide) (by decide)

/-! ## Claim C6 -/

/-- Counterexample to C6: for the six-line pair below, the claim predicts
the `REVERSE_ED` output to be the `ED` output (descending, bottom hunk
first) with only the header tokens reordered — that would be
`a6 / z / . / d6 / a3 / x / y / . / d2,3`.  The code instead emits the
hunks inline in ascending order and replaces the comma of a two-line range
by a space. -/
theorem c6_reverse_ed_counterexample :
    reverse_ed_output ["1", "2", "3", "4", "5", "6"] ["1", "x", "y", "4", "5", "z"] ≠
      ["a6", "z", ".", "d6", "a3", "x", "y", ".", "d2,3"] := by
  decide

/-- C6 amended: `ED` output is emitted in descending line order (the hunks
are pushed with `appendleft` and printed after the loop), while
`REVERSE_ED` is emitted inline in ascending order; its headers put the
action before the range and write a two-line range with a space instead of
a comma.  Apart from the header line, the two dialects render a hunk
identically. -/
theorem c6_ed_order_amended :
    ed_output ["1", "2", "3", "4", "5", "6"] ["1", "x", "y", "4", "5", "z"] =
      ["6a", "z", ".", "6d", "3a", "x", "y", ".", "2,3d"] ∧
    reverse_ed_output ["1", "2", "3", "4", "5", "6"] ["1", "x", "y", "4", "5", "z"] =
      ["d2 3", "a3", "x", "y", ".", "d6", "a6", "z", "."] ∧
    (∀ (f1 f2 : List String) (h : Hunk),
      (output_ed_diff f1 f2 EdMode.ed h).tail =
        (output_ed_diff f1 f2 EdMode.reverse_ed h).tail) := by
  refine ⟨by decide, by decide, ?_⟩
  intro f1 f2 h
  rfl

/-! ## Claim C5 -/

/-- A twenty-line file used by the merge-boundary scenarios. -/
def twentyLines : List String :=
  ["l01", "l02", "l03", "l04", "l05", "l06", "l07", "l08", "l09", "l10",
   "l11", "l12", "l13", "l14", "l15", "l16", "l17", "l18", "l19", "l20"]

/-- C5: in the hunk-building loop, when context is positive and the next
hunk starts within one line of the pending hunk in either file (the
`does_overlap` test of `Hunk`), the two are merged by `prepend_hunk` and
nothing is flushed; with `context = 3`, single-line changes at lines 5 and
8 of a twenty-line file produce one hunk while changes at lines 5 and 20
produce two. -/
theorem c5_hunk_merge :
    (∀ (ctx len1 len2 : Nat) (piece : List Change) (rest : List (List Change))
        (oh : Hunk) (fld : Int),
      0 < ctx →
      ((mkHunk piece ctx fld len1 len2).1.start1 ≤ oh.end1 + 1 ∨
       (mkHunk piece ctx fld len1 len2).1.start2 ≤ oh.end2 + 1) →
      hunkLoop ctx len1 len2 (piece :: rest) (some oh) fld =
        hunkLoop ctx len1 len2 rest
          (some (prepend_hunk (mkHunk piece ctx fld len1 len2).1 oh))
          (mkHunk piece ctx fld len1 len2).2) ∧
    (hunkList twentyLines ((twentyLines.set 4 "x").set 7 "y") 3).length = 1 ∧
    (hunkList twentyLines ((twentyLines.set 4 "x").set 19 "y") 3).length = 2 := by
  refine ⟨?_, by decide, by decide⟩
  intro ctx len1 len2 piece rest oh fld hctx hover
  have hov : does_overlap (mkHunk piece ctx fld len1 len2).1 oh = true := by
    unfold does_overlap
    rcases hover with hv | hv
    · have : ((mkHunk piece ctx fld len1 len2).1.start1 - oh.end1 ≤ 1) := by omega
      simp [this]
    · have : ((mkHunk piece ctx fld len1 len2).1.start2 - oh.end2 ≤ 1) := by omega
      simp [this]
  conv_lhs => rw [hunkLoop]
  simp [hov, hctx]

/-- Witness for C5 at a concrete overlapping step. -/
theorem c5_hunk_merge_witness :
    hunkLoop 3 3 3 [[(Sign.plus, 1)]] (some ⟨0, 2, 0, 2, [[(Sign.minus, 1)]]⟩) (-1) =
      hunkLoop 3 3 3 []
        (some (prepend_hunk (mkHunk [(Sign.plus, 1)] 3 (-1) 3 3).1
          ⟨0, 2, 0, 2, [[(Sign.minus, 1)]]⟩))
        (mkHunk [(Sign.plus, 1)] 3 (-1) 3 3).2 :=
  c5_hunk_merge.1 3 3 3 [(Sign.plus, 1)] [] ⟨0, 2, 0, 2, [[(Sign.minus, 1)]]⟩ (-1)
    (by decide) (Or.inl (by decide))

/-! ## LCS table access lemmas (towards claim C1) -/

/-- Head with default is the entry at index 0. -/
theorem headD_eq_getD (l : List Nat) (d : Nat) : l.headD d = l.getD 0 d := by
  cases l <;> rfl

/-- Index access after dropping one element. -/
theorem getD_drop_one (l : List Nat) (j d : Nat) :
    (l.drop 1).getD j d = l.getD (j + 1) d := by
  rw [List.getD_eq_getElem?_getD, List.getD_eq_getElem?_getD, List.getElem?_drop,
    Nat.add_comm]

/-- Index access into a cons as a conditional. -/
theorem cons_getD (v : Nat) (l : List Nat) (j : Nat) :
    (v :: l).getD j 0 = if j = 0 then v else l.getD (j - 1) 0 := by
  cases j <;> simp

/-- Length of the inner row loop. -/
theorem lcsRowAux_length (x : String) :
    ∀ (ys : List String) (prev : List Nat) (left : Nat),
      (lcsRowAux x ys prev left).length = ys.length := by
  intro ys
  induction ys with
  | nil => intro prev left; rfl
  | cons y ys ih => intro prev left; simp [lcsRowAux, ih]

/-- Entry characterisation of the inner row loop: entry `j` follows the LCS
recurrence against the previous row and the entry to its left. -/
theorem lcsRowAux_getD (x : String) :
    ∀ (ys : List String) (prev : List Nat) (left : Nat) (j : Nat), j < ys.length →
      (lcsRowAux x ys prev left).getD j 0 =
        if x = ys.getD j "" then prev.getD j 0 + 1
        else max (if j = 0 then left else (lcsRowAux x ys prev left).getD (j - 1) 0)
                 (prev.getD (j + 1) 0) := by
  intro ys
  induction ys with
  | nil => intro prev left j h; simp at h
  | cons y ys ih =>
    intro prev left j h
    cases j with
    | zero =>
      simp only [lcsRowAux, List.getD_cons_zero, if_neg]
      rw [headD_eq_getD, headD_eq_getD, getD_drop_one]
      rfl
    | succ j =>
      have hlen : j < ys.length := by simpa using h
      have hih := ih (prev.drop 1)
        (if x = y then prev.headD 0 + 1 else max left ((prev.drop 1).headD 0)) j hlen
      simp only [lcsRowAux, List.getD_cons_succ]
      rw [hih]
      have e1 : (prev.drop 1).getD j 0 = prev.getD (j + 1) 0 := getD_drop_one prev j 0
      have e2 : (prev.drop 1).getD (j + 1) 0 = prev.getD (j + 2) 0 := getD_drop_one prev (j + 1) 0
      rw [e1, e2]
      cases j with
      | zero => simp
      | succ k => simp

/-- Entries of a zero-filled row. -/
theorem replicate_getD_zero (n j : Nat) : (List.replicate n (0 : Nat)).getD j 0 = 0 := by
  rw [List.getD_eq_getElem?_getD, List.getElem?_replicate]
  split <;> rfl

/-- Border of the LCS table: row 0 is all zeros. -/
theorem mEntry_zero_left (a b : List String) (j : Nat) :
    mEntry (lcs_matrix a b) 0 j = 0 := by
  unfold mEntry lcs_matrix
  simp only [List.getD_cons_zero]
  exact replicate_getD_zero _ j

/-- Every row of `lcsRows` is an `lcsRow` (or the out-of-range default). -/
theorem lcsRows_getD_shape (b : List String) :
    ∀ (xs : List String) (prev : List Nat) (i : Nat),
      (lcsRows b xs prev).getD i [] = [] ∨
      ∃ x p, (lcsRows b xs prev).getD i [] = lcsRow x b p := by
  intro xs
  induction xs with
  | nil => intro prev i; left; cases i <;> rfl
  | cons x xs ih =>
    intro prev i
    cases i with
    | zero => right; exact ⟨x, prev, rfl⟩
    | succ i => exact ih (lcsRow x b prev) i

/-- Border of the LCS table: column 0 is all zeros. -/
theorem mEntry_zero_right (a b : List String) (i : Nat) :
    mEntry (lcs_matrix a b) i 0 = 0 := by
  unfold mEntry
  cases i with
  | zero =>
    unfold lcs_matrix
    simp only [List.getD_cons_zero]
    exact replicate_getD_zero _ 0
  | succ i =>
    have step : (lcs_matrix a b).getD (i + 1) [] = (lcsRows b a
        (List.replicate (b.length + 1) 0)).getD i [] := rfl
    rw [step]
    rcases lcsRows_getD_shape b a (List.replicate (b.length + 1) 0) i with h | ⟨x, p, h⟩
    · rw [h]; rfl
    · rw [h]; rfl

/-- Each row of `lcsRows` is built from the row before it. -/
theorem lcsRows_getD_rel (b : List String) :
    ∀ (xs : List String) (prev : List Nat) (i : Nat), i < xs.length →
      (lcsRows b xs prev).getD i [] =
        lcsRow (xs.getD i "") b
          (if i = 0 then prev else (lcsRows b xs prev).getD (i - 1) []) := by
  intro xs
  induction xs with
  | nil => intro prev i h; simp at h
  | cons x xs ih =>
    intro prev i h
    cases i with
    | zero => rfl
    | succ k =>
      have hk : k < xs.length := by simpa using h
      have lhs : (lcsRows b (x :: xs) prev).getD (k + 1) [] =
          (lcsRows b xs (lcsRow x b prev)).getD k [] := rfl
      rw [lhs, ih (lcsRow x b prev) k hk]
      cases k with
      | zero => rfl
      | succ m => rfl

/-- Rows of the full table are built from the row before them. -/
theorem matrix_row_succ (a b : List String) (i : Nat) (hi : i < a.length) :
    (lcs_matrix a b).getD (i + 1) [] =
      lcsRow (a.getD i "") b ((lcs_matrix a b).getD i []) := by
  have step : (lcs_matrix a b).getD (i + 1) [] = (lcsRows b a
      (List.replicate (b.length + 1) 0)).getD i [] := rfl
  rw [step, lcsRows_getD_rel b a (List.replicate (b.length + 1) 0) i hi]
  cases i with
  | zero => rfl
  | succ k => rfl

/-- The LCS recurrence of `lcs_matrix`: inner entries follow the usual
match / max rule. -/
theorem mEntry_succ_succ (a b : List String) (i j : Nat)
    (hi : i < a.length) (hj : j < b.length) :
    mEntry (lcs_matrix a b) (i + 1) (j + 1) =
      if a.getD i "" = b.getD j "" then mEntry (lcs_matrix a b) i j + 1
      else max (mEntry (lcs_matrix a b) (i + 1) j) (mEntry (lcs_matrix a b) i (j + 1)) := by
  unfold mEntry
  rw [matrix_row_succ a b i hi]
  show (lcsRowAux (a.getD i "") b ((lcs_matrix a b).getD i []) 0).getD j 0 = _
  rw [lcsRowAux_getD (a.getD i "") b ((lcs_matrix a b).getD i []) 0 j hj]
  cases j with
  | zero => rfl
  | succ m => rfl

/-- The LCS specification is zero against an empty second list. -/
theorem lcsLen_nil_right (xs : List String) : lcsLen xs [] = 0 := by
  cases xs <;> simp [lcsLen]

/-- Upper bound: every common sublist is at most as long as `lcsLen`. -/
theorem lcsLen_is_ub :
    ∀ (xs ys l : List String), l.Sublist xs → l.Sublist ys → l.length ≤ lcsLen xs ys := by
  intro xs
  induction xs with
  | nil =>
    intro ys l h1 _
    rw [List.sublist_nil.mp h1]
    simp
  | cons x xs ihx =>
    intro ys
    induction ys with
    | nil =>
      intro l _ h2
      rw [List.sublist_nil.mp h2]
      simp
    | cons y ys ihy =>
      intro l h1 h2
      by_cases hxy : x = y
      · cases l with
        | nil => simp
        | cons c t =>
          have ht1 : t.Sublist xs := by
            rcases List.sublist_cons_iff.mp h1 with h | ⟨r, he, hr⟩
            · exact List.Sublist.trans (List.sublist_cons_self c t) h
            · cases he; exact hr
          have ht2 : t.Sublist ys := by
            rcases List.sublist_cons_iff.mp h2 with h | ⟨r, he, hr⟩
            · exact List.Sublist.trans (List.sublist_cons_self c t) h
            · cases he; exact hr
          have hb := ihx ys t ht1 ht2
          simp only [lcsLen, if_pos hxy, List.length_cons]
          omega
      · rcases List.sublist_cons_iff.mp h1 with h | ⟨r, he, hr⟩
        · have hb := ihx (y :: ys) l h h2
          simp only [lcsLen, if_neg hxy]
          exact le_trans hb (le_max_right _ _)
        · subst he
          rcases List.sublist_cons_iff.mp h2 with h' | ⟨r', he', hr'⟩
          · have hb := ihy (x :: r) h1 h'
            simp only [lcsLen, if_neg hxy]
            exact le_trans hb (le_max_left _ _)
          · cases he'
            exact absurd rfl hxy

/-- Reversing a prefix one step longer exposes its last element. -/
theorem take_succ_reverse (l : List String) (i : Nat) (h : i < l.length) :
    (l.take (i + 1)).reverse = l.getD i "" :: (l.take i).reverse := by
  rw [List.getD_eq_getElem l "" h, List.take_succ, List.getElem?_eq_getElem h]
  simp

/-- The LCS table of `diff.py` computes `lcsLen` of the reversed
prefixes. -/
theorem mEntry_eq_lcsLen (a b : List String) :
    ∀ i j, i ≤ a.length → j ≤ b.length →
      mEntry (lcs_matrix a b) i j = lcsLen ((a.take i).reverse) ((b.take j).reverse) := by
  intro i
  induction i with
  | zero =>
    intro j _ _
    simp [mEntry_zero_left, lcsLen]
  | succ i ihi =>
    intro j
    induction j with
    | zero =>
      intro _ _
      simp [mEntry_zero_right, lcsLen_nil_right]
    | succ j ihj =>
      intro hi hj
      have hi' : i < a.length := by omega
      have hj' : j < b.length := by omega
      rw [mEntry_succ_succ a b i j hi' hj']
      rw [take_succ_reverse a i hi', take_succ_reverse b j hj']
      by_cases he : a.getD i "" = b.getD j ""
      · rw [if_pos he]
        simp only [lcsLen, if_pos he]
        rw [ihi j (by omega) (by omega)]
      · rw [if_neg he]
        simp only [lcsLen, if_neg he]
        have e1 := ihj (by omega) (by omega)
        rw [take_succ_reverse a i hi'] at e1
        have e2 := ihi (j + 1) (by omega) hj
        rw [take_succ_reverse b j hj'] at e2
        rw [e1, e2]

/-! ## Slice lemmas -/

/-- Empty slice. -/
theorem seg_self (l : List String) (i : Nat) : seg l i i = [] := by
  simp [seg]

/-- Extending a slice by one element. -/
theorem seg_succ (l : List String) (i k : Nat) (hik : i ≤ k) (hk : k < l.length) :
    seg l i (k + 1) = seg l i k ++ [l.getD k ""] := by
  unfold seg
  have e : k + 1 - i = (k - i) + 1 := by omega
  rw [e, List.take_succ, List.getElem?_drop]
  have e2 : i + (k - i) = k := by omega
  rw [e2, List.getElem?_eq_getElem hk, List.getD_eq_getElem l "" hk]
  rfl

/-- Extending a prefix by one element. -/
theorem take_succ_getD (l : List String) (i : Nat) (h : i < l.length) :
    l.take (i + 1) = l.take i ++ [l.getD i ""] := by
  rw [List.take_succ, List.getElem?_eq_getElem h, List.getD_eq_getElem l "" h]
  rfl

/-- A prefix followed by a slice is a longer prefix. -/
theorem take_append_seg (l : List String) (i k : Nat) (hik : i ≤ k) :
    l.take i ++ seg l i k = l.take k := by
  unfold seg
  have e : k = i + (k - i) := by omega
  conv_rhs => rw [e]
  rw [List.take_add]

/-- The slice to the end is `drop`. -/
theorem seg_to_end (l : List String) (i : Nat) : seg l i l.length = l.drop i := by
  unfold seg
  exact List.take_of_length_le (by rw [List.length_drop])

/-- Slice length. -/
theorem seg_length (l : List String) (i k : Nat) (hk : k ≤ l.length) :
    (seg l i k).length = k - i := by
  unfold seg
  rw [List.length_take, List.length_drop]
  omega

/-! ## Reconstruction: applying the emitted script rebuilds `B` -/

/-- Unfolding of `applyRevOps` on a cons cell. -/
theorem applyRevOps_cons (a b : List String) (c : Change) (rest : List Change) :
    applyRevOps a b (c :: rest) =
      match applyRevOps a b rest with
      | none => none
      | some (i, j, out) =>
        match c with
        | (Sign.minus, d) =>
          if i ≤ d ∧ d < a.length then
            some (d + 1, j + (d - i), out ++ seg a i d)
          else none
        | (Sign.plus, p) =>
          if j ≤ p ∧ p < b.length ∧ i + (p - j) ≤ a.length then
            some (i + (p - j), p + 1, out ++ seg a i (i + (p - j)) ++ [b.getD p ""])
          else none := rfl

/-- Invariant of the backtracking loop: applying its output (read backwards)
consumes `A` and produces `B` up to a common tail of `t` kept lines. -/
theorem applyRevOps_diffLoop (a b : List String) (m : List (List Nat)) :
    ∀ (fuel i j : Nat), i + j ≤ fuel → i ≤ a.length → j ≤ b.length →
      ∃ t, t ≤ i ∧ t ≤ j ∧
        applyRevOps a b (diffLoop a b m fuel i j) = some (i - t, j - t, b.take (j - t)) ∧
        seg a (i - t) i = seg b (j - t) j := by
  intro fuel
  induction fuel with
  | zero =>
    intro i j hf hi hj
    have hi0 : i = 0 := by omega
    have hj0 : j = 0 := by omega
    subst hi0; subst hj0
    exact ⟨0, Nat.le_refl 0, Nat.le_refl 0, rfl, rfl⟩
  | succ fuel ih =>
    intro i j hf hi hj
    by_cases h00 : i = 0 ∧ j = 0
    · obtain ⟨rfl, rfl⟩ := h00
      exact ⟨0, Nat.le_refl 0, Nat.le_refl 0, by simp [diffLoop, applyRevOps], rfl⟩
    · rw [diffLoop, if_neg h00]
      by_cases hkeep : 0 < i ∧ 0 < j ∧ a.getD (i - 1) "" = b.getD (j - 1) ""
      · rw [if_pos hkeep]
        obtain ⟨hi0, hj0, heq⟩ := hkeep
        obtain ⟨i', rfl⟩ : ∃ i', i = i' + 1 := ⟨i - 1, by omega⟩
        obtain ⟨j', rfl⟩ : ∃ j', j = j' + 1 := ⟨j - 1, by omega⟩
        simp only [Nat.add_sub_cancel] at heq ⊢
        obtain ⟨t, ht1, ht2, happ, hseg⟩ := ih i' j' (by omega) (by omega) (by omega)
        refine ⟨t + 1, by omega, by omega, ?_, ?_⟩
        · have e1 : i' + 1 - (t + 1) = i' - t := by omega
          have e2 : j' + 1 - (t + 1) = j' - t := by omega
          rw [e1, e2]
          exact happ
        · have e1 : i' + 1 - (t + 1) = i' - t := by omega
          have e2 : j' + 1 - (t + 1) = j' - t := by omega
          rw [e1, e2,
            seg_succ a (i' - t) i' (by omega) (by omega),
            seg_succ b (j' - t) j' (by omega) (by omega),
            hseg, heq]
      · rw [if_neg hkeep]
        by_cases hins : 0 < j ∧ (i = 0 ∨ mEntry m i (j - 1) ≥ mEntry m (i - 1) j)
        · rw [if_pos hins]
          obtain ⟨j', rfl⟩ : ∃ j', j = j' + 1 := ⟨j - 1, by omega⟩
          simp only [Nat.add_sub_cancel]
          obtain ⟨t, ht1, ht2, happ, hseg⟩ := ih i j' (by omega) hi (by omega)
          refine ⟨0, Nat.zero_le _, Nat.zero_le _, ?_,
            by rw [Nat.sub_zero, Nat.sub_zero, seg_self, seg_self]⟩
          rw [applyRevOps_cons, happ]
          have hcond : j' - t ≤ j' ∧ j' < b.length ∧ i - t + (j' - (j' - t)) ≤ a.length := by
            refine ⟨by omega, by omega, by omega⟩
          dsimp only
          rw [if_pos hcond]
          have ej : j' - (j' - t) = t := by omega
          rw [ej]
          have ei : i - t + t = i := by omega
          rw [ei, hseg, take_append_seg b (j' - t) j' (by omega),
            ← take_succ_getD b j' (by omega)]
          rfl
        · rw [if_neg hins]
          have hdel : 0 < i ∧ (j = 0 ∨ mEntry m i (j - 1) < mEntry m (i - 1) j) := by
            rcases Nat.eq_zero_or_pos i with hi0 | hip
            · exact absurd ⟨by omega, Or.inl hi0⟩ hins
            · refine ⟨hip, ?_⟩
              rcases Nat.eq_zero_or_pos j with hj0 | hjp
              · exact Or.inl hj0
              · right
                by_contra hlt
                exact hins ⟨hjp, Or.inr (by omega)⟩
          rw [if_pos hdel]
          obtain ⟨i', rfl⟩ : ∃ i', i = i' + 1 := ⟨i - 1, by omega⟩
          simp only [Nat.add_sub_cancel]
          obtain ⟨t, ht1, ht2, happ, hseg⟩ := ih i' j (by omega) (by omega) hj
          refine ⟨0, Nat.zero_le _, Nat.zero_le _, ?_,
            by rw [Nat.sub_zero, Nat.sub_zero, seg_self, seg_self]⟩
          rw [applyRevOps_cons, happ]
          have hcond : i' - t ≤ i' ∧ i' < a.length := ⟨by omega, by omega⟩
          dsimp only
          rw [if_pos hcond]
          have et : i' - (i' - t) = t := by omega
          rw [et]
          have ej : j - t + t = j := by omega
          rw [ej, hseg, take_append_seg b (j - t) j (by omega)]
          rfl

/-! ## Script length: the emitted script has `i + j - 2·LCS` operations -/

/-- The backtracking loop emits exactly `i + j - 2 * matrix[i][j]`
operations. -/
theorem diffLoop_length (a b : List String) :
    ∀ (fuel i j : Nat), i + j ≤ fuel → i ≤ a.length → j ≤ b.length →
      (diffLoop a b (lcs_matrix a b) fuel i j).length + 2 * mEntry (lcs_matrix a b) i j =
        i + j := by
  intro fuel
  induction fuel with
  | zero =>
    intro i j hf hi hj
    have hi0 : i = 0 := by omega
    have hj0 : j = 0 := by omega
    subst hi0; subst hj0
    simp [diffLoop, mEntry_zero_left]
  | succ fuel ih =>
    intro i j hf hi hj
    by_cases h00 : i = 0 ∧ j = 0
    · obtain ⟨rfl, rfl⟩ := h00
      simp [diffLoop, mEntry_zero_left]
    · rw [diffLoop, if_neg h00]
      by_cases hkeep : 0 < i ∧ 0 < j ∧ a.getD (i - 1) "" = b.getD (j - 1) ""
      · rw [if_pos hkeep]
        obtain ⟨hi0, hj0, heq⟩ := hkeep
        obtain ⟨i', rfl⟩ : ∃ i', i = i' + 1 := ⟨i - 1, by omega⟩
        obtain ⟨j', rfl⟩ : ∃ j', j = j' + 1 := ⟨j - 1, by omega⟩
        simp only [Nat.add_sub_cancel] at heq ⊢
        have hm : mEntry (lcs_matrix a b) (i' + 1) (j' + 1) =
            mEntry (lcs_matrix a b) i' j' + 1 := by
          rw [mEntry_succ_succ a b i' j' (by omega) (by omega), if_pos heq]
        rw [hm]
        have hrec := ih i' j' (by omega) (by omega) (by omega)
        omega
      · rw [if_neg hkeep]
        by_cases hins : 0 < j ∧ (i = 0 ∨
            mEntry (lcs_matrix a b) i (j - 1) ≥ mEntry (lcs_matrix a b) (i - 1) j)
        · rw [if_pos hins]
          obtain ⟨hj0, hor⟩ := hins
          obtain ⟨j', rfl⟩ : ∃ j', j = j' + 1 := ⟨j - 1, by omega⟩
          simp only [Nat.add_sub_cancel] at hor ⊢
          have hm : mEntry (lcs_matrix a b) i (j' + 1) = mEntry (lcs_matrix a b) i j' := by
            cases i with
            | zero => rw [mEntry_zero_left, mEntry_zero_left]
            | succ i'' =>
              have hne : ¬(a.getD i'' "" = b.getD j' "") := by
                intro he
                exact hkeep ⟨by omega, by omega, by simpa using he⟩
              rw [mEntry_succ_succ a b i'' j' (by omega) (by omega), if_neg hne]
              rcases hor with h0 | hge
              · exact absurd h0 (by omega)
              · simp only [Nat.add_sub_cancel] at hge
                exact Nat.max_eq_left hge
          rw [List.length_cons, hm]
          have hrec := ih i j' (by omega) hi (by omega)
          omega
        · rw [if_neg hins]
          have hdel : 0 < i ∧ (j = 0 ∨
              mEntry (lcs_matrix a b) i (j - 1) < mEntry (lcs_matrix a b) (i - 1) j) := by
            rcases Nat.eq_zero_or_pos i with hi0 | hip
            · exact absurd ⟨by omega, Or.inl hi0⟩ hins
            · refine ⟨hip, ?_⟩
              rcases Nat.eq_zero_or_pos j with hj0 | hjp
              · exact Or.inl hj0
              · right
                by_contra hlt
                exact hins ⟨hjp, Or.inr (by omega)⟩
          rw [if_pos hdel]
          obtain ⟨hip, hor⟩ := hdel
          obtain ⟨i', rfl⟩ : ∃ i', i = i' + 1 := ⟨i - 1, by omega⟩
          simp only [Nat.add_sub_cancel] at hor ⊢
          have hm : mEntry (lcs_matrix a b) (i' + 1) j = mEntry (lcs_matrix a b) i' j := by
            cases j with
            | zero => rw [mEntry_zero_right, mEntry_zero_right]
            | succ j'' =>
              have hne : ¬(a.getD i' "" = b.getD j'' "") := by
                intro he
                exact hkeep ⟨by omega, by omega, by simpa using he⟩
              rw [mEntry_succ_succ a b i' j'' (by omega) (by omega), if_neg hne]
              rcases hor with h0 | hlt
              · exact absurd h0 (by omega)
              · simp only [Nat.add_sub_cancel] at hlt
                exact Nat.max_eq_right (Nat.le_of_lt hlt)
          rw [List.length_cons, hm]
          have hrec := ih i' j (by omega) (by omega) hj
          omega

/-! ## Lower bound: any valid script keeps a common sublist -/

/-- Per-script accounting: a successful application keeps a common sublist
`l` of `A` and of the output, with one consumed `A` line per delete and one
produced line per insert. -/
theorem applyRevOps_common (a b : List String) :
    ∀ (cs : List Change) (i j : Nat) (out : List String),
      applyRevOps a b cs = some (i, j, out) →
      ∃ l : List String, l.Sublist (a.take i) ∧ l.Sublist out ∧ out.length = j ∧
        i ≤ a.length ∧
        i = l.length + cs.countP (fun c => decide (c.1 = Sign.minus)) ∧
        j = l.length + cs.countP (fun c => decide (c.1 = Sign.plus)) := by
  intro cs
  induction cs with
  | nil =>
    intro i j out h
    simp only [applyRevOps, Option.some.injEq, Prod.mk.injEq] at h
    obtain ⟨h1, h2, h3⟩ := h
    subst h1; subst h2; subst h3
    exact ⟨[], by simp, by simp, rfl, by omega, by simp, by simp⟩
  | cons c rest ihr =>
    intro i j out h
    rw [applyRevOps_cons] at h
    rcases hr : applyRevOps a b rest with _ | ⟨⟨i0, j0, out0⟩⟩
    · rw [hr] at h; simp at h
    · rw [hr] at h
      obtain ⟨l0, hl1, hl2, hlen, hia, hic, hjc⟩ := ihr i0 j0 out0 hr
      rcases c with ⟨sg, idx⟩
      cases sg with
      | minus =>
        dsimp only at h
        by_cases hcnd : i0 ≤ idx ∧ idx < a.length
        · rw [if_pos hcnd] at h
          simp only [Option.some.injEq, Prod.mk.injEq] at h
          obtain ⟨h1, h2, h3⟩ := h
          subst h1; subst h2; subst h3
          refine ⟨l0 ++ seg a i0 idx, ?_, ?_, ?_, by omega, ?_, ?_⟩
          · rw [← take_append_seg a i0 (idx + 1) (by omega)]
            apply List.Sublist.append hl1
            rw [seg_succ a i0 idx (by omega) (by omega)]
            exact List.sublist_append_left _ _
          · exact List.Sublist.append hl2 (List.Sublist.refl _)
          · rw [List.length_append, hlen, seg_length a i0 idx (by omega)]
          · rw [List.length_append, seg_length a i0 idx (by omega), List.countP_cons]
            simp
            omega
          · rw [List.length_append, seg_length a i0 idx (by omega), List.countP_cons]
            simp
            omega
        · rw [if_neg hcnd] at h
          exact absurd h (by simp)
      | plus =>
        dsimp only at h
        by_cases hcnd : j0 ≤ idx ∧ idx < b.length ∧ i0 + (idx - j0) ≤ a.length
        · rw [if_pos hcnd] at h
          simp only [Option.some.injEq, Prod.mk.injEq] at h
          obtain ⟨h1, h2, h3⟩ := h
          subst h1; subst h2; subst h3
          refine ⟨l0 ++ seg a i0 (i0 + (idx - j0)), ?_, ?_, ?_, by omega, ?_, ?_⟩
          · rw [← take_append_seg a i0 (i0 + (idx - j0)) (by omega)]
            exact List.Sublist.append hl1 (List.Sublist.refl _)
          · exact List.Sublist.trans
              (List.Sublist.append hl2 (List.Sublist.refl _))
              (List.sublist_append_left _ _)
          · rw [List.length_append, List.length_append, hlen,
              seg_length a i0 (i0 + (idx - j0)) (by omega)]
            simp
            omega
          · rw [List.length_append, seg_length a i0 (i0 + (idx - j0)) (by omega),
              List.countP_cons]
            simp
            omega
          · rw [List.length_append, seg_length a i0 (i0 + (idx - j0)) (by omega),
              List.countP_cons]
            simp
            omega
        · rw [if_neg hcnd] at h
          exact absurd h (by simp)

/-- Every change is a plus or a minus, so the two counts add to the
length. -/
theorem countP_sign_split (cs : List Change) :
    cs.countP (fun c => decide (c.1 = Sign.minus)) +
      cs.countP (fun c => decide (c.1 = Sign.plus)) = cs.length := by
  induction cs with
  | nil => rfl
  | cons c rest ih =>
    rw [List.countP_cons, List.countP_cons]
    rcases c with ⟨sg, idx⟩
    cases sg with
    | plus => simp; omega
    | minus => simp; omega

/-! ## Claim C1 -/

/-- C1: the change list computed by `diff`/`lcs_matrix` (the concatenation
of the returned blocks) is an edit script of delete/insert operations that
transforms `A` into exactly `B`, of minimum length among all scripts doing
so; equal inputs give an empty script, an empty `A` gives only inserts,
and an empty `B` gives only deletes. -/
theorem c1_diff_minimal_reconstruction (a b : List String) :
    (diff a b).flatten = changes a b ∧
    applyChanges a b (changes a b) = some b ∧
    (∀ s : List Change, applyChanges a b s = some b → (changes a b).length ≤ s.length) ∧
    (a = b → changes a b = []) ∧
    (a = [] → ∀ c ∈ changes a b, c.1 = Sign.plus) ∧
    (b = [] → ∀ c ∈ changes a b, c.1 = Sign.minus) := by
  refine ⟨?_, ?_, ?_, ?_, ?_, ?_⟩
  · rcases hc : changes a b with _ | ⟨c, rest⟩
    · simp [diff, hc]
    · unfold diff
      rw [hc]
      simpa using groupLoop_flatten rest c [c]
  · unfold applyChanges changes
    rw [List.reverse_reverse]
    obtain ⟨t, ht1, ht2, happ, hseg⟩ :=
      applyRevOps_diffLoop a b (lcs_matrix a b) (a.length + b.length) a.length b.length
        (Nat.le_refl _) (Nat.le_refl _) (Nat.le_refl _)
    rw [happ]
    simp only [Option.map_some', Option.some.injEq]
    have e1 : a.drop (a.length - t) = seg a (a.length - t) a.length := (seg_to_end a _).symm
    have e2 : seg b (b.length - t) b.length = b.drop (b.length - t) := seg_to_end b _
    rw [e1, hseg, e2, List.take_append_drop]
  · intro s hs
    unfold applyChanges at hs
    rcases hv : applyRevOps a b s.reverse with _ | ⟨⟨i, j, out⟩⟩
    · rw [hv] at hs; simp at hs
    · rw [hv] at hs
      simp only [Option.map_some', Option.some.injEq] at hs
      obtain ⟨l, hl1, hl2, hlen, hia, hic, hjc⟩ := applyRevOps_common a b s.reverse i j out hv
      have hsub_a : (l ++ a.drop i).Sublist a := by
        have h' := List.Sublist.append hl1 (List.Sublist.refl (a.drop i))
        rwa [List.take_append_drop] at h'
      have hsub_b : (l ++ a.drop i).Sublist b := by
        rw [← hs]
        exact List.Sublist.append hl2 (List.Sublist.refl _)
      have hub : (l ++ a.drop i).length ≤ lcsLen a.reverse b.reverse := by
        have h3 := lcsLen_is_ub a.reverse b.reverse (l ++ a.drop i).reverse
          (List.Sublist.reverse hsub_a) (List.Sublist.reverse hsub_b)
        rwa [List.length_reverse] at h3
      have hbridge : mEntry (lcs_matrix a b) a.length b.length = lcsLen a.reverse b.reverse := by
        have hb := mEntry_eq_lcsLen a b a.length b.length (Nat.le_refl _) (Nat.le_refl _)
        rwa [List.take_length, List.take_length] at hb
      have hcode := diffLoop_length a b (a.length + b.length) a.length b.length
        (Nat.le_refl _) (Nat.le_refl _) (Nat.le_refl _)
      have hclen : (changes a b).length =
          (diffLoop a b (lcs_matrix a b) (a.length + b.length) a.length b.length).length := by
        unfold changes; rw [List.length_reverse]
      have hsplit := countP_sign_split s.reverse
      have hslen : s.reverse.length = s.length := List.length_reverse s
      have hdroplen : (a.drop i).length = a.length - i := List.length_drop i a
      have hblen : out.length + (a.drop i).length = b.length := by
        rw [← List.length_append, hs]
      have hl_fin : (l ++ a.drop i).length = l.length + (a.length - i) := by
        rw [List.length_append, hdroplen]
      omega
  · intro hab; subst hab; exact changes_self a
  · intro ha c hc
    subst ha
    unfold changes at hc
    rw [List.mem_reverse] at hc
    simp only [List.length_nil] at hc
    exact diffLoop_zero_left [] b (lcs_matrix [] b) _ _ c hc
  · intro hb c hc
    subst hb
    unfold changes at hc
    rw [List.mem_reverse] at hc
    simp only [List.length_nil] at hc
    exact diffLoop_zero_right a [] (lcs_matrix a []) _ _ c hc

/-- Witness for C1 at concrete inputs. -/
theorem c1_diff_minimal_reconstruction_witness :
    applyChanges ["a", "b", "c"] ["a", "x", "c"] (changes ["a", "b", "c"] ["a", "x", "c"]) =
      some ["a", "x", "c"] ∧
    (changes ["a", "b", "c"] ["a", "x", "c"]).length ≤
      ([(Sign.minus, 1), (Sign.plus, 1)] : List Change).length ∧
    changes ["q"] ["q"] = [] ∧
    (∀ c ∈ changes ([] : List String) ["z"], c.1 = Sign.plus) ∧
    (∀ c ∈ changes ["z"] ([] : List String), c.1 = Sign.minus) :=
  ⟨(c1_diff_minimal_reconstruction ["a", "b", "c"] ["a", "x", "c"]).2.1,
   (c1_diff_minimal_reconstruction ["a", "b", "c"] ["a", "x", "c"]).2.2.1
     [(Sign.minus, 1), (Sign.plus, 1)] (by decide),
   (c1_diff_minimal_reconstruction ["q"] ["q"]).2.2.2.1 rfl,
   (c1_diff_minimal_reconstruction [] ["z"]).2.2.2.2.1 rfl,
   (c1_diff_minimal_reconstruction ["z"] []).2.2.2.2.2 rfl⟩
